import Mathlib

/-
Verification of the `surfing` JSON-boundary extractor.

Shallow embedding of the core of the repository:
  * `src/constants.rs`          -> `MARKERS`, `PAIRED_MARKERS`
  * `src/parser/marker.rs`      -> `Marker`, `Marker.new`, `Marker.is_counter_part`
  * `src/parser/json_parser.rs` -> `JSONParser` and its methods
  * `src/serde/streaming_deserializer.rs` -> `StreamingDeserializer` and its methods

Representation notes.

Strings are modelled as `List Char` (Rust iterates `str::chars()`), with
`String::push` as `++ [c]` and `String::clear` as `[]`.

The Rust `Vec<Marker>` stack pushes and pops at the END of the vector; we
model it as a `List Marker` whose HEAD is the top of the stack, so
`Vec::push` is `List.cons`, `Vec::pop` removes the head (`List.tail`), and
the source's clone-reverse-then-scan in `remove_markers_pair` becomes a scan
of the list from its head.

The caller-supplied sink (`W : Write`) is modelled by a deterministic write
oracle `wok : List Char → Char → Bool` telling, given the characters already
written, whether writing the next character succeeds; the sink state is the
list of successfully written characters.  `extract_json_from_stream` returns
the final parser, the written log, and a success flag (`false` when a write
failed, mirroring the early `Err` return through the `?` operator).

The decode collaborator (`serde_json::from_str::<T>`) is an external crate;
it is a parameter `decode : List Char → Except E V` of the accumulator's
methods.
-/

namespace Surfing

/-- Markers that indicate the start of a JSON structure (`src/constants.rs`). -/
def MARKERS : List Char := ['{', '[']

/-- All paired markers, opening and closing (`src/constants.rs`). -/
def PAIRED_MARKERS : List Char := ['{', '}', '[', ']']

/-- A JSON marker holding the closing character expected to balance it
(`src/parser/marker.rs`). -/
structure Marker where
  expected_counterpart : Char
deriving DecidableEq, Repr

/-- The `for included_marker in MARKERS` loop inside `Marker::new`. -/
def Marker.newLoop (marker : Char) : List Char → Option Marker
  | [] => none
  | included_marker :: rest =>
    if marker = included_marker then
      if marker = '{' then some ⟨'}'⟩
      else if marker = '[' then some ⟨']'⟩
      else Marker.newLoop marker rest
    else Marker.newLoop marker rest

/-- Source `Marker::new`: a marker is produced exactly for the two opener characters. -/
def Marker.new (marker : Char) : Option Marker :=
  Marker.newLoop marker MARKERS

/-- Source `Marker::is_counter_part`. -/
def Marker.is_counter_part (m : Marker) (marker : Char) : Bool :=
  m.expected_counterpart == marker

/-- The extractor state (`src/parser/json_parser.rs`): the pending span
buffer and the stack of open markers (top of stack at the head). -/
structure JSONParser where
  buffer : List Char
  markers : List Marker
deriving DecidableEq, Repr

/-- Source `JSONParser::new`. -/
def JSONParser.new : JSONParser :=
  { buffer := [], markers := [] }

/-- Source `JSONParser::is_in_json`: the stack is non-empty. -/
def JSONParser.is_in_json (p : JSONParser) : Bool :=
  !p.markers.isEmpty

/-- The `for marker in markers_to_reverse.iter()` loop of
`JSONParser::remove_markers_pair`: scan the stack from the top; at the first
element whose counterpart matches, pop the TOP of the stack (`Vec::pop`,
i.e. drop the head in our representation) and stop. -/
def JSONParser.remove_markers_pair_loop (p : JSONParser) (item : Char) :
    List Marker → JSONParser
  | [] => p
  | marker :: rest =>
    if marker.is_counter_part item then { p with markers := p.markers.tail }
    else p.remove_markers_pair_loop item rest

/-- Source `JSONParser::remove_markers_pair`: the source clones the end-pushed
`Vec` and reverses it before scanning; with the top-at-head representation
that reversed clone is `p.markers` itself. -/
def JSONParser.remove_markers_pair (p : JSONParser) (item : Char) : JSONParser :=
  p.remove_markers_pair_loop item p.markers

/-- Source `JSONParser::update_markers`. -/
def JSONParser.update_markers (p : JSONParser) (item : Char) : JSONParser :=
  match Marker.new item with
  | some marker => { p with markers := marker :: p.markers }
  | none =>
    let p2 := p.remove_markers_pair item
    if p2.markers.isEmpty then { p2 with buffer := [] } else p2

/-- The state mutation performed for one processed character inside the
loop of `extract_json_from_stream`: `self.buffer.push(item)` followed by
`self.update_markers(&item)`. -/
def JSONParser.charStateUpdate (p : JSONParser) (item : Char) : JSONParser :=
  JSONParser.update_markers { p with buffer := p.buffer ++ [item] } item

/-- Source `JSONParser::extract_json_from_stream` with a fallible sink.
`wok written item` tells whether the `write!` of `item` succeeds given the
characters already written.  Note the source mutates the parser state
BEFORE attempting the write, and returns `Err` (flag `false`) immediately
on a failed write. -/
def JSONParser.extract_json_from_stream (wok : List Char → Char → Bool) :
    JSONParser → List Char → List Char → JSONParser × List Char × Bool
  | p, written, [] => (p, written, true)
  | p, written, item :: rest =>
    if p.is_in_json then
      let p2 := p.charStateUpdate item
      if wok written item then
        JSONParser.extract_json_from_stream wok p2 (written ++ [item]) rest
      else (p2, written, false)
    else if PAIRED_MARKERS.contains item then
      let p2 := p.charStateUpdate item
      if wok written item then
        JSONParser.extract_json_from_stream wok p2 (written ++ [item]) rest
      else (p2, written, false)
    else JSONParser.extract_json_from_stream wok p written rest

/-- One call of `extract_json_from_stream` against a sink whose writes all
succeed (e.g. the `Cursor<&mut Vec<u8>>` used by the streaming
deserializer): final parser and the characters written.  Its agreement with
`extract_json_from_stream` is proved in `extract_json_from_stream_ok`. -/
def JSONParser.extractAll : JSONParser → List Char → JSONParser × List Char
  | p, [] => (p, [])
  | p, item :: rest =>
    if p.is_in_json || PAIRED_MARKERS.contains item then
      let r := (p.charStateUpdate item).extractAll rest
      (r.1, item :: r.2)
    else p.extractAll rest

/-- Feeding a sequence of chunks through successive
`extract_json_from_stream` calls on one parser (all sink writes
succeeding), concatenating the sink output. -/
def JSONParser.feedChunks : JSONParser → List (List Char) → JSONParser × List Char
  | p, [] => (p, [])
  | p, chunk :: rest =>
    let r := p.extractAll chunk
    let r2 := r.1.feedChunks rest
    (r2.1, r.2 ++ r2.2)

/-- The accumulator state (`src/serde/streaming_deserializer.rs`); the
`PhantomData<T>` field carries no state and is omitted. -/
structure StreamingDeserializer where
  parser : JSONParser
  accumulated_json : List Char
deriving DecidableEq, Repr

/-- Source `StreamingDeserializer::new`. -/
def StreamingDeserializer.new : StreamingDeserializer :=
  { parser := JSONParser.new, accumulated_json := [] }

/-- Source `StreamingDeserializer::process_chunk`, with the decode collaborator
(`serde_json::from_str::<T>`) passed as `decode`.  The extraction writes to
a `Cursor` over a fresh `Vec`, whose writes always succeed, so the
extraction is `extractAll`; the captured characters are appended to the
accumulation, and when the parser reports closed with a non-empty
accumulation the whole accumulation is decoded after being cleared, a
decode error being mapped to `none`. -/
def StreamingDeserializer.process_chunk {E V : Type} (decode : List Char → Except E V)
    (d : StreamingDeserializer) (chunk : List Char) : StreamingDeserializer × Option V :=
  let r := d.parser.extractAll chunk
  let acc := d.accumulated_json ++ r.2
  if !r.1.is_in_json && !acc.isEmpty then
    match decode acc with
    | Except.ok value => ({ parser := r.1, accumulated_json := [] }, some value)
    | Except.error _ => ({ parser := r.1, accumulated_json := [] }, none)
  else
    ({ parser := r.1, accumulated_json := acc }, none)

/-- Source `StreamingDeserializer::is_in_json`. -/
def StreamingDeserializer.is_in_json (d : StreamingDeserializer) : Bool :=
  d.parser.is_in_json

/-- Source `StreamingDeserializer::reset`. -/
def StreamingDeserializer.reset (_d : StreamingDeserializer) : StreamingDeserializer :=
  { parser := JSONParser.new, accumulated_json := [] }

/-- Source `StreamingDeserializer::finalize`. -/
def StreamingDeserializer.finalize {E V : Type} (decode : List Char → Except E V)
    (d : StreamingDeserializer) : StreamingDeserializer × Except E (Option V) :=
  if d.accumulated_json.isEmpty then (d, Except.ok none)
  else
    match decode d.accumulated_json with
    | Except.ok value => (d.reset, Except.ok (some value))
    | Except.error e => (d, Except.error e)

/-
Spec-side definitions.  These are NOT translated from the source; they
formalise the spec's own vocabulary (glossary: structural character,
opener, closer, span; section 8: structural span) so that the source's
behavior can be compared against it.
-/

/-- Modelled from the spec's glossary: the concatenation of all structural
spans of a string, a span being the maximal substring from an opener that
takes nesting depth from zero to one through the character that returns
depth to zero (openers increase depth, closers decrease it, other
characters leave it unchanged; a closer seen at depth zero starts no span,
and an unterminated trailing region is not a span).  The first argument is
the current depth, the second the pending characters of the region opened
so far. -/
def spansAux : Nat → List Char → List Char → List Char
  | _, _, [] => []
  | 0, _, c :: rest =>
    if c = '{' || c = '[' then spansAux 1 [c] rest
    else spansAux 0 [] rest
  | d + 1, pend, c :: rest =>
    if c = '{' || c = '[' then spansAux (d + 2) (pend ++ [c]) rest
    else if c = '}' || c = ']' then
      match d with
      | 0 => (pend ++ [c]) ++ spansAux 0 [] rest
      | d' + 1 => spansAux (d' + 1) (pend ++ [c]) rest
    else spansAux (d + 1) (pend ++ [c]) rest

/-- Modelled from the spec: concatenation, in order of appearance, of all
structural spans found in the input. -/
def spanConcat (s : List Char) : List Char := spansAux 0 [] s

/-- Modelled from the spec: one step of proper bracket matching over the
stack of expected closers.  An opener pushes its closer; a closer must
match the top of the stack exactly (a stray or mismatched closer yields
`none`); other characters change nothing. -/
def matchedStep (stk : List Char) (c : Char) : Option (List Char) :=
  if c = '{' then some ('}' :: stk)
  else if c = '[' then some (']' :: stk)
  else if c = '}' || c = ']' then
    match stk with
    | [] => none
    | t :: stk' => if t = c then some stk' else none
  else some stk

/-- Iterated `matchedStep` over a string, from a given stack of expected
closers. -/
def matchedStack : List Char → List Char → Option (List Char)
  | stk, [] => some stk
  | stk, c :: rest =>
    match matchedStep stk c with
    | none => none
    | some stk' => matchedStack stk' rest

/-- Modelled from the spec: the structural characters of the input are
properly nested and all opened structures are closed (no stray closer, no
mismatched closer, no unterminated opener). -/
def wellNested (s : List Char) : Bool :=
  matchedStack [] s = some []

/-- Helper for `isStructuralSpan`: run proper matching, requiring the
stack to be non-empty after every proper non-empty prefix and empty
exactly at the end. -/
def spanRun : List Char → List Char → Bool
  | stk, [] => stk.isEmpty
  | stk, c :: rest =>
    match matchedStep stk c with
    | none => false
    | some stk' => (rest.isEmpty || !stk'.isEmpty) && spanRun stk' rest

/-- Modelled from the spec: a structural span — a non-empty, properly
matched string that starts with an opener taking depth from zero to one
and whose final character is the first to return depth to zero. -/
def isStructuralSpan (s : List Char) : Bool :=
  match s with
  | [] => false
  | c :: _ => (c = '{' || c = '[') && spanRun [] s

/-- Modelled from the spec: the external decode collaborator
(`serde_json::from_str`), which decodes exactly one complete structure and
rejects input with trailing content after it. -/
def oneValueDecoder (s : List Char) : Except Unit (List Char) :=
  if isStructuralSpan s then Except.ok s else Except.error ()

/-
Proof-internal helpers tying the extractor's marker stack to the
spec-side stack of expected closers.
-/

/-- The extractor's marker stack corresponding to a stack of expected
closer characters. -/
def markersOf (stk : List Char) : List Marker :=
  stk.map (fun c => ⟨c⟩)

/-- Every expected closer on the stack is one of the two closer
characters. -/
def stkOK (stk : List Char) : Prop :=
  ∀ x ∈ stk, x = '}' ∨ x = ']'

/-- The characters the extractor emits while consuming a properly matched
input from a given stack of expected closers: every character is emitted
except non-structural characters seen while the stack is empty. -/
def emit : List Char → List Char → List Char
  | _, [] => []
  | stk, c :: rest =>
    match matchedStep stk c with
    | none => []
    | some stk' =>
      if stk.isEmpty && !(PAIRED_MARKERS.contains c) then emit stk' rest
      else c :: emit stk' rest

/-
Computation lemmas about the translated definitions.
-/

theorem marker_new_eq (c : Char) :
    Marker.new c
      = if c = '{' then some ⟨'}'⟩ else if c = '[' then some ⟨']'⟩ else none := by
  by_cases h1 : c = '{'
  · simp [Marker.new, Marker.newLoop, MARKERS, h1]
  · by_cases h2 : c = '['
    · simp [Marker.new, Marker.newLoop, MARKERS, h1, h2]
    · simp [Marker.new, Marker.newLoop, MARKERS, h1, h2]

theorem remove_markers_pair_loop_eq (p : JSONParser) (item : Char) (l : List Marker) :
    p.remove_markers_pair_loop item l
      = if l.any (fun m => m.is_counter_part item) then
          { p with markers := p.markers.tail }
        else p := by
  induction l with
  | nil => simp [JSONParser.remove_markers_pair_loop]
  | cons m rest ih =>
    by_cases h : m.is_counter_part item
    · simp [JSONParser.remove_markers_pair_loop, h]
    · simp [JSONParser.remove_markers_pair_loop, h, ih]

theorem remove_markers_pair_eq (p : JSONParser) (item : Char) :
    p.remove_markers_pair item
      = if p.markers.any (fun m => m.is_counter_part item) then
          { p with markers := p.markers.tail }
        else p := by
  simpa [JSONParser.remove_markers_pair] using
    remove_markers_pair_loop_eq p item p.markers

theorem paired_contains_iff (c : Char) :
    PAIRED_MARKERS.contains c = true ↔ (c = '{' ∨ c = '}' ∨ c = '[' ∨ c = ']') := by
  simp [PAIRED_MARKERS, List.contains]

theorem extract_json_from_stream_ok (s : List Char) :
    ∀ (p : JSONParser) (written : List Char),
    JSONParser.extract_json_from_stream (fun _ _ => true) p written s
      = ((p.extractAll s).1, written ++ (p.extractAll s).2, true) := by
  induction s with
  | nil =>
    intro p written
    simp [JSONParser.extract_json_from_stream, JSONParser.extractAll]
  | cons c rest ih =>
    intro p written
    by_cases h1 : p.is_in_json
    · simp [JSONParser.extract_json_from_stream, JSONParser.extractAll, h1, ih]
    · by_cases h2 : c ∈ PAIRED_MARKERS
      · simp [JSONParser.extract_json_from_stream, JSONParser.extractAll, h1, h2, ih]
      · simp [JSONParser.extract_json_from_stream, JSONParser.extractAll, h1, h2, ih]

theorem extractAll_append (a : List Char) :
    ∀ (b : List Char) (p : JSONParser),
    p.extractAll (a ++ b)
      = (((p.extractAll a).1.extractAll b).1,
         (p.extractAll a).2 ++ ((p.extractAll a).1.extractAll b).2) := by
  induction a with
  | nil => intro b p; simp [JSONParser.extractAll]
  | cons c rest ih =>
    intro b p
    by_cases h1 : p.is_in_json
    · simp [JSONParser.extractAll, h1, ih]
    · by_cases h2 : c ∈ PAIRED_MARKERS
      · simp [JSONParser.extractAll, h1, h2, ih]
      · simp [JSONParser.extractAll, h1, h2, ih]

theorem feedChunks_flatten (chunks : List (List Char)) :
    ∀ p : JSONParser, p.feedChunks chunks = p.extractAll chunks.flatten := by
  induction chunks with
  | nil => intro p; simp [JSONParser.feedChunks, JSONParser.extractAll]
  | cons chunk rest ih =>
    intro p
    simp [JSONParser.feedChunks, List.flatten, extractAll_append, ih]

/-
Step lemmas about the per-character state update.
-/

theorem charStateUpdate_markers_brace (p : JSONParser) :
    (p.charStateUpdate '{').markers = ⟨'}'⟩ :: p.markers := by
  simp [JSONParser.charStateUpdate, JSONParser.update_markers, marker_new_eq]

theorem charStateUpdate_markers_bracket (p : JSONParser) :
    (p.charStateUpdate '[').markers = ⟨']'⟩ :: p.markers := by
  simp [JSONParser.charStateUpdate, JSONParser.update_markers, marker_new_eq]

theorem charStateUpdate_markers_closer (p : JSONParser) (c : Char) (m : Marker)
    (M : List Marker) (hc : c = '}' ∨ c = ']') (hm : p.markers = m :: M)
    (hcp : m.is_counter_part c = true) :
    (p.charStateUpdate c).markers = M := by
  rcases hc with hc | hc <;> subst hc <;>
    simp [JSONParser.charStateUpdate, JSONParser.update_markers, marker_new_eq,
      remove_markers_pair_eq, hm, hcp] <;>
    split <;> rfl

theorem charStateUpdate_markers_other (p : JSONParser) (c : Char)
    (hb : c ≠ '{') (hk : c ≠ '[')
    (hany : p.markers.any (fun m => m.is_counter_part c) = false)
    (hne : p.markers ≠ []) :
    (p.charStateUpdate c).markers = p.markers := by
  simp [JSONParser.charStateUpdate, JSONParser.update_markers, marker_new_eq,
    remove_markers_pair_eq, hb, hk, hany, hne]

theorem any_counter_false (c : Char) (h1 : c ≠ '}') (h2 : c ≠ ']') :
    ∀ stk : List Char, stkOK stk →
    (markersOf stk).any (fun m => m.is_counter_part c) = false := by
  intro stk
  induction stk with
  | nil => intro _; simp [markersOf]
  | cons t rest ih =>
    intro hok
    have ht := hok t (by simp)
    have hrest : stkOK rest := fun x hx => hok x (by simp [hx])
    have hr := ih hrest
    simp [markersOf, Marker.is_counter_part] at hr ⊢
    rcases ht with h | h <;> subst h
    · exact ⟨Ne.symm h1, hr⟩
    · exact ⟨Ne.symm h2, hr⟩

theorem is_in_json_markersOf (p : JSONParser) (stk : List Char)
    (hm : p.markers = markersOf stk) :
    p.is_in_json = !stk.isEmpty := by
  cases stk <;> simp [JSONParser.is_in_json, hm, markersOf]

/-
The main invariant: on a properly matched input, starting from a parser
whose marker stack mirrors the stack of expected closers, the extractor
emits exactly `emit` and ends with the marker stack mirroring the final
expected-closer stack.
-/

theorem extractAll_matched (s : List Char) :
    ∀ (stk stk' : List Char) (p : JSONParser),
    stkOK stk → p.markers = markersOf stk → matchedStack stk s = some stk' →
    (p.extractAll s).2 = emit stk s ∧ (p.extractAll s).1.markers = markersOf stk' := by
  induction s with
  | nil =>
    intro stk stk' p _hok hpm hms
    simp [matchedStack] at hms
    subst hms
    simp [JSONParser.extractAll, emit, hpm]
  | cons c rest ih =>
    intro stk stk' p hok hpm hms
    by_cases hc1 : c = '{'
    · subst hc1
      have hstep : matchedStep stk '{' = some ('}' :: stk) := by simp [matchedStep]
      rw [matchedStack, hstep] at hms
      have hok' : stkOK ('}' :: stk) := by
        intro x hx
        rcases List.mem_cons.mp hx with h | h
        · exact Or.inl h
        · exact hok x h
      have hpm' : (p.charStateUpdate '{').markers = markersOf ('}' :: stk) := by
        simp [charStateUpdate_markers_brace, markersOf, hpm]
      obtain ⟨hout, hmk⟩ := ih ('}' :: stk) stk' _ hok' hpm' hms
      constructor
      · simp [JSONParser.extractAll, show ('{' : Char) ∈ PAIRED_MARKERS from by decide,
          emit, hstep, PAIRED_MARKERS, hout]
      · simp [JSONParser.extractAll, show ('{' : Char) ∈ PAIRED_MARKERS from by decide, hmk]
    · by_cases hc2 : c = '['
      · subst hc2
        have hstep : matchedStep stk '[' = some (']' :: stk) := by simp [matchedStep]
        rw [matchedStack, hstep] at hms
        have hok' : stkOK (']' :: stk) := by
          intro x hx
          rcases List.mem_cons.mp hx with h | h
          · exact Or.inr h
          · exact hok x h
        have hpm' : (p.charStateUpdate '[').markers = markersOf (']' :: stk) := by
          simp [charStateUpdate_markers_bracket, markersOf, hpm]
        obtain ⟨hout, hmk⟩ := ih (']' :: stk) stk' _ hok' hpm' hms
        constructor
        · simp [JSONParser.extractAll, show ('[' : Char) ∈ PAIRED_MARKERS from by decide,
            emit, hstep, PAIRED_MARKERS, hout]
        · simp [JSONParser.extractAll, show ('[' : Char) ∈ PAIRED_MARKERS from by decide, hmk]
      · by_cases hc3 : c = '}' ∨ c = ']'
        · -- a closer: proper matching forces a non-empty stack whose top matches
          cases stk with
          | nil =>
            exfalso
            rcases hc3 with h | h <;> subst h <;>
              simp [matchedStack, matchedStep, hc1, hc2] at hms
          | cons t stk2 =>
            have ht : t = c := by
              by_contra hne
              rcases hc3 with h | h <;> subst h <;>
                simp [matchedStack, matchedStep, hne] at hms
            have hstep : matchedStep (t :: stk2) c = some stk2 := by
              rcases hc3 with h | h <;> rw [ht, h] <;> simp [matchedStep]
            rw [matchedStack, hstep] at hms
            have hok2 : stkOK stk2 := fun x hx => hok x (by simp [hx])
            have hopen : p.is_in_json = true := by
              simp [is_in_json_markersOf p _ hpm]
            have hpm' : (p.charStateUpdate c).markers = markersOf stk2 :=
              charStateUpdate_markers_closer p c ⟨t⟩ (markersOf stk2) hc3
                (by simp [hpm, markersOf]) (by simp [Marker.is_counter_part, ht])
            obtain ⟨hout, hmk⟩ := ih stk2 stk' _ hok2 hpm' hms
            constructor
            · simp [JSONParser.extractAll, hopen, emit, hstep, hout]
            · simp [JSONParser.extractAll, hopen, hmk]
        · -- not a structural character
          push_neg at hc3
          obtain ⟨hc3a, hc3b⟩ := hc3
          have hstep : matchedStep stk c = some stk := by
            simp [matchedStep, hc1, hc2, hc3a, hc3b]
          rw [matchedStack, hstep] at hms
          have hnp : c ∉ PAIRED_MARKERS := by
            simp [PAIRED_MARKERS, hc1, hc2, hc3a, hc3b]
          cases stk with
          | nil =>
            have hclosed : p.is_in_json = false := by
              simp [is_in_json_markersOf p _ hpm]
            obtain ⟨hout, hmk⟩ := ih [] stk' p hok hpm hms
            constructor
            · simp [JSONParser.extractAll, hclosed, hnp, emit, hstep,
                List.isEmpty_nil, hout,
                show PAIRED_MARKERS.contains c = false from by
                  simpa using hnp]
            · simp [JSONParser.extractAll, hclosed, hnp, hmk]
          | cons t stk2 =>
            have hopen : p.is_in_json = true := by
              simp [is_in_json_markersOf p _ hpm]
            have hany : p.markers.any (fun m => m.is_counter_part c) = false := by
              rw [hpm]
              exact any_counter_false c hc3a hc3b _ hok
            have hpm' : (p.charStateUpdate c).markers = p.markers :=
              charStateUpdate_markers_other p c hc1 hc2 hany
                (by simp [hpm, markersOf])
            obtain ⟨hout, hmk⟩ := ih (t :: stk2) stk' _ hok (hpm'.trans hpm) hms
            constructor
            · simp [JSONParser.extractAll, hopen, emit, hstep, hout]
            · simp [JSONParser.extractAll, hopen, hmk]

/-
On a properly matched input the glossary's span concatenation coincides
with `emit` (every pending region eventually completes, so nothing is
discarded and every stray-closer path is unreachable).
-/

theorem spansAux_emit (s : List Char) :
    ∀ (stk pend : List Char),
    matchedStack stk s = some [] →
    spansAux stk.length pend s = (if stk.isEmpty then [] else pend) ++ emit stk s := by
  induction s with
  | nil =>
    intro stk pend hms
    simp [matchedStack] at hms
    subst hms
    simp [spansAux, emit]
  | cons c rest ih =>
    intro stk pend hms
    by_cases hc1 : c = '{'
    · subst hc1
      have hstep : matchedStep stk '{' = some ('}' :: stk) := by simp [matchedStep]
      rw [matchedStack, hstep] at hms
      have := ih ('}' :: stk) ('{' :: pend) hms
      cases stk with
      | nil =>
        have h1 := ih ('}' :: ([] : List Char)) ['{'] hms
        simp at h1
        simp [spansAux, emit, hstep, h1, PAIRED_MARKERS]
      | cons t stk2 =>
        have h1 := ih ('}' :: t :: stk2) (pend ++ ['{']) hms
        simp at h1
        simp [spansAux, emit, hstep, h1, PAIRED_MARKERS]
    · by_cases hc2 : c = '['
      · subst hc2
        have hstep : matchedStep stk '[' = some (']' :: stk) := by simp [matchedStep]
        rw [matchedStack, hstep] at hms
        cases stk with
        | nil =>
          have h1 := ih (']' :: ([] : List Char)) ['['] hms
          simp at h1
          simp [spansAux, emit, hstep, h1, PAIRED_MARKERS]
        | cons t stk2 =>
          have h1 := ih (']' :: t :: stk2) (pend ++ ['[']) hms
          simp at h1
          simp [spansAux, emit, hstep, h1, PAIRED_MARKERS]
      · by_cases hc3 : c = '}' ∨ c = ']'
        · cases stk with
          | nil =>
            exfalso
            rcases hc3 with h | h <;> subst h <;>
              simp [matchedStack, matchedStep] at hms
          | cons t stk2 =>
            have ht : t = c := by
              by_contra hne
              rcases hc3 with h | h <;> subst h <;>
                simp [matchedStack, matchedStep, hne] at hms
            have hstep : matchedStep (t :: stk2) c = some stk2 := by
              rcases hc3 with h | h <;> rw [ht, h] <;> simp [matchedStep]
            rw [matchedStack, hstep] at hms
            have hcl : (c = '}' ∨ c = ']') ∧ ¬(c = '{' || c = '[') = true := by
              constructor
              · exact hc3
              · simp [hc1, hc2]
            cases stk2 with
            | nil =>
              have h1 := ih ([] : List Char) [] hms
              simp at h1
              rcases hc3 with h | h <;> subst h <;>
                simp [spansAux, emit, hstep, h1, hc1, hc2]
            | cons u stk3 =>
              have h1 := ih (u :: stk3) (pend ++ [c]) hms
              simp at h1
              rcases hc3 with h | h <;> subst h <;>
                simp [spansAux, emit, hstep, h1, hc1, hc2]
        · push_neg at hc3
          obtain ⟨hc3a, hc3b⟩ := hc3
          have hstep : matchedStep stk c = some stk := by
            simp [matchedStep, hc1, hc2, hc3a, hc3b]
          rw [matchedStack, hstep] at hms
          have hnp : c ∉ PAIRED_MARKERS := by
            simp [PAIRED_MARKERS, hc1, hc2, hc3a, hc3b]
          cases stk with
          | nil =>
            have h1 := ih ([] : List Char) [] hms
            simp at h1
            simp [spansAux, emit, hstep, h1, hc1, hc2, hc3a, hc3b, hnp]
          | cons t stk2 =>
            have h1 := ih (t :: stk2) (pend ++ [c]) hms
            simp at h1
            simp [spansAux, emit, hstep, h1, hc1, hc2, hc3a, hc3b, hnp]

/-
Properties of `spanRun` (structural spans) and of well-nested stacks.
-/

theorem matchedStep_ok (stk : List Char) (c : Char) (stk' : List Char)
    (h : matchedStep stk c = some stk') (hok : stkOK stk) : stkOK stk' := by
  by_cases hc1 : c = '{'
  · subst hc1
    simp [matchedStep] at h
    subst h
    intro x hx
    rcases List.mem_cons.mp hx with h | h
    · exact Or.inl h
    · exact hok x h
  · by_cases hc2 : c = '['
    · subst hc2
      simp [matchedStep] at h
      subst h
      intro x hx
      rcases List.mem_cons.mp hx with h | h
      · exact Or.inr h
      · exact hok x h
    · by_cases hc3 : c = '}' ∨ c = ']'
      · cases stk with
        | nil =>
          exfalso
          rcases hc3 with h' | h' <;> subst h' <;> simp [matchedStep] at h
        | cons t stk2 =>
          have h' : (if t = c then some stk2 else none) = some stk' := by
            rcases hc3 with h' | h' <;> subst h' <;> simpa [matchedStep] using h
          by_cases ht : t = c
          · simp [ht] at h'
            subst h'
            exact fun x hx => hok x (by simp [hx])
          · simp [ht] at h'
      · push_neg at hc3
        simp [matchedStep, hc1, hc2, hc3.1, hc3.2] at h
        subst h
        exact hok

theorem matchedStack_ok (s : List Char) :
    ∀ stk stk', stkOK stk → matchedStack stk s = some stk' → stkOK stk' := by
  induction s with
  | nil =>
    intro stk stk' hok h
    simp [matchedStack] at h
    subst h
    exact hok
  | cons c rest ih =>
    intro stk stk' hok h
    rw [matchedStack] at h
    cases hstep : matchedStep stk c with
    | none => rw [hstep] at h; simp at h
    | some stk2 =>
      rw [hstep] at h
      exact ih stk2 stk' (matchedStep_ok stk c stk2 hstep hok) h

theorem spanRun_matchedStack (s : List Char) :
    ∀ stk, spanRun stk s = true → matchedStack stk s = some [] := by
  induction s with
  | nil =>
    intro stk h
    simp [spanRun] at h
    simp [matchedStack, h]
  | cons c rest ih =>
    intro stk h
    rw [spanRun] at h
    cases hstep : matchedStep stk c with
    | none => rw [hstep] at h; simp at h
    | some stk2 =>
      rw [hstep] at h
      simp at h
      rw [matchedStack, hstep]
      exact ih stk2 h.2

theorem spanRun_front (p : List Char) :
    ∀ (q stk : List Char), p ≠ [] → q ≠ [] → spanRun stk (p ++ q) = true →
    ∃ stk2, matchedStack stk p = some stk2 ∧ stk2 ≠ [] := by
  induction p with
  | nil => intro q stk hp; exact absurd rfl hp
  | cons c p2 ih =>
    intro q stk _hp hq h
    rw [List.cons_append, spanRun] at h
    cases hstep : matchedStep stk c with
    | none => rw [hstep] at h; simp at h
    | some stk2 =>
      rw [hstep] at h
      simp at h
      obtain ⟨h1, h2⟩ := h
      cases p2 with
      | nil =>
        refine ⟨stk2, by simp [matchedStack, hstep], ?_⟩
        rcases h1 with h1 | h1
        · exact absurd h1.2 hq
        · simpa using h1
      | cons u p3 =>
        obtain ⟨stk3, hm, hne⟩ := ih q stk2 (by simp) hq h2
        exact ⟨stk3, by rw [matchedStack, hstep]; exact hm, hne⟩

theorem isStructuralSpan_spanRun (s : List Char) (h : isStructuralSpan s = true) :
    spanRun [] s = true := by
  cases s with
  | nil => simp [isStructuralSpan] at h
  | cons c r =>
    simp [isStructuralSpan] at h
    exact h.2

/-
The claims.
-/

/-- Claim C1, counterexample to the claim as stated: on the input
consisting of the single closer character, which contains no structural
span at all (no opener ever takes depth from zero to one), the extractor
nevertheless writes that character to the sink, so the sink output is not
the concatenation of the structural spans of the input. -/
theorem C1_counterexample :
    ¬ (JSONParser.new.extractAll ['}']).2 = spanConcat ['}'] := by
  decide

/-- Claim C1 as amended: for every input whose structural characters are
properly nested and all closed (`wellNested`), delivered in one call or
split across many calls with a sink whose writes all succeed, the bytes
written to the sink are exactly the concatenation, in order of appearance,
of all structural spans found in the input, with all non-structural
interleaved text removed.  (`feedChunks` is the successive-call run of
`extract_json_from_stream` against an always-succeeding sink, see
`extract_json_from_stream_ok` and `feedChunks_flatten`.) -/
theorem C1_extraction_wellNested (chunks : List (List Char))
    (h : wellNested chunks.flatten = true) :
    (JSONParser.new.feedChunks chunks).2 = spanConcat chunks.flatten := by
  have hms : matchedStack [] chunks.flatten = some [] := by
    simpa [wellNested] using h
  have hok : stkOK [] := by intro x hx; simp at hx
  have hmk : JSONParser.new.markers = markersOf [] := rfl
  obtain ⟨hout, _⟩ := extractAll_matched chunks.flatten [] [] JSONParser.new hok hmk hms
  have hspec := spansAux_emit chunks.flatten [] [] hms
  rw [feedChunks_flatten]
  rw [hout]
  simpa [spanConcat] using hspec.symm

/-- Claim C1, witness: the amended theorem applied to a concrete chunked
input containing surrounding text and two structural spans. -/
theorem C1_witness :
    (JSONParser.new.feedChunks [['a', '{'], ['}', '[', ']', 'x']]).2
      = spanConcat (List.flatten [['a', '{'], ['}', '[', ']', 'x']]) :=
  C1_extraction_wellNested [['a', '{'], ['}', '[', ']', 'x']] (by decide)

/-- Claim C2: chunk-split invariance.  For every partition of an input
into chunks, feeding the chunks through successive
`extract_json_from_stream` calls on a fresh extractor (all sink writes
succeeding) yields the same concatenated sink output and the same final
extractor state as feeding the whole input in a single call. -/
theorem C2_chunk_invariance (chunks : List (List Char)) :
    JSONParser.new.feedChunks chunks = JSONParser.new.extractAll chunks.flatten :=
  feedChunks_flatten chunks JSONParser.new

/-- Claim C3: closer handling.  When a closer character is processed, the
stack is searched for any element whose expected counterpart equals the
character; if one exists anywhere in the stack, the element currently at
the top is popped (whether or not the top is the one that matched); if
none matches, the stack is left unchanged. -/
theorem C3_closer_pop (p : JSONParser) (c : Char) (hc : c = '}' ∨ c = ']') :
    ((∃ m ∈ p.markers, m.is_counter_part c = true) →
      (p.update_markers c).markers = p.markers.tail) ∧
    ((∀ m ∈ p.markers, m.is_counter_part c = false) →
      (p.update_markers c).markers = p.markers) := by
  have hnew : Marker.new c = none := by
    rcases hc with h | h <;> subst h <;> simp [marker_new_eq]
  have key : (p.update_markers c).markers
      = if p.markers.any (fun m => m.is_counter_part c) then p.markers.tail
        else p.markers := by
    simp only [JSONParser.update_markers, hnew, remove_markers_pair_eq]
    by_cases hany : p.markers.any (fun m => m.is_counter_part c)
    · simp only [hany, if_true]
      split <;> rfl
    · simp only [hany, Bool.false_eq_true, if_false]
      split <;> rfl
  constructor
  · intro hex
    have hany : p.markers.any (fun m => m.is_counter_part c) = true := by
      rw [List.any_eq_true]
      obtain ⟨m, hm, hcp⟩ := hex
      exact ⟨m, hm, hcp⟩
    rw [key, hany]
    rfl
  · intro hall
    have hany : p.markers.any (fun m => m.is_counter_part c) = false := by
      rw [List.any_eq_false]
      intro m hm
      simp [hall m hm]
    rw [key, hany]
    rfl

/-- Claim C3, witness: with the stack holding a bracket marker on top of a
brace marker, the closer of the BOTTOM element is seen; a match exists in
the stack, and the TOP element (which does not match) is popped. -/
theorem C3_witness :
    (JSONParser.update_markers { buffer := [], markers := [⟨']'⟩, ⟨'}'⟩] } '}').markers
      = [(⟨'}'⟩ : Marker)] := by
  have h := (C3_closer_pop { buffer := [], markers := [⟨']'⟩, ⟨'}'⟩] } '}'
    (Or.inl rfl)).1 (by decide)
  simpa using h

/-- Claim C4, counterexample to the claim as stated: with a sink whose
first write fails, processing the single opener character leaves the
extractor's state changed — the failing character HAS been pushed onto the
pending buffer and its marker HAS been pushed onto the stack — because the
source updates state before attempting the write. -/
theorem C4_counterexample :
    ¬ (JSONParser.extract_json_from_stream (fun _ _ => false)
        JSONParser.new [] ['{']).1 = JSONParser.new := by
  decide

/-- Claim C4 as amended: if the sink's write fails on a character that the
extractor processes, `extract_json_from_stream` returns the error
immediately, aborting the rest of the chunk; output already written to the
sink is not rolled back; and the extractor's state is the state AFTER the
failing character's buffer/stack update (not the state before it). -/
theorem C4_fault_amended (wok : List Char → Char → Bool) (p : JSONParser)
    (written : List Char) (c : Char) (rest : List Char)
    (hproc : p.is_in_json = true ∨ c ∈ PAIRED_MARKERS)
    (hfail : wok written c = false) :
    JSONParser.extract_json_from_stream wok p written (c :: rest)
      = (p.charStateUpdate c, written, false) := by
  by_cases h : p.is_in_json
  · simp [JSONParser.extract_json_from_stream, h, hfail]
  · have hc : c ∈ PAIRED_MARKERS := hproc.resolve_left (by simpa using h)
    simp [JSONParser.extract_json_from_stream, h, hc, hfail]

/-- Claim C4, witness: the amended theorem applied to a fresh extractor, a
sink that always fails, and the chunk beginning with an opener. -/
theorem C4_witness :
    JSONParser.extract_json_from_stream (fun _ _ => false)
        JSONParser.new [] ['{', 'a']
      = (JSONParser.new.charStateUpdate '{', [], false) :=
  C4_fault_amended (fun _ _ => false) JSONParser.new [] '{' ['a']
    (Or.inr (by decide)) rfl

/-- Claim C5: the `process_chunk` contract.  After running the chunk
through the extractor and appending the captured characters to the
accumulation, if the extractor reports closed and the accumulation is
non-empty, the accumulation's full contents are handed to the decoder and
the accumulation is cleared, the call returning the decoded value on
success and `none` on decode failure (the decode error is swallowed);
in every other case (still open, or empty accumulation) the call returns
`none` and keeps the accumulation. -/
theorem C5_process_chunk_contract {E V : Type} (decode : List Char → Except E V)
    (d : StreamingDeserializer) (chunk : List Char) :
    ((d.parser.extractAll chunk).1.is_in_json = false →
      d.accumulated_json ++ (d.parser.extractAll chunk).2 ≠ [] →
      StreamingDeserializer.process_chunk decode d chunk
        = ({ parser := (d.parser.extractAll chunk).1, accumulated_json := [] },
           (decode (d.accumulated_json ++ (d.parser.extractAll chunk).2)).toOption)) ∧
    ((d.parser.extractAll chunk).1.is_in_json = true ∨
        d.accumulated_json ++ (d.parser.extractAll chunk).2 = [] →
      StreamingDeserializer.process_chunk decode d chunk
        = ({ parser := (d.parser.extractAll chunk).1,
             accumulated_json := d.accumulated_json ++ (d.parser.extractAll chunk).2 },
           none)) := by
  constructor
  · intro hclosed hne
    have hie : (d.accumulated_json ++ (d.parser.extractAll chunk).2).isEmpty = false := by
      cases h : d.accumulated_json ++ (d.parser.extractAll chunk).2 with
      | nil => exact absurd h hne
      | cons a l => simp
    cases hdec : decode (d.accumulated_json ++ (d.parser.extractAll chunk).2) with
    | ok v =>
      simp [StreamingDeserializer.process_chunk, hclosed, hie, hdec, Except.toOption]
    | error e =>
      simp [StreamingDeserializer.process_chunk, hclosed, hie, hdec, Except.toOption]
  · intro hcase
    rcases hcase with hopen | hempty
    · simp [StreamingDeserializer.process_chunk, hopen]
    · simp [StreamingDeserializer.process_chunk, hempty]

/-- Decoder instance used by the C5 witness: accepts exactly one concrete
object span. -/
def decodeC5 : List Char → Except Nat Nat :=
  fun s => if s = ['{', '}'] then Except.ok 1 else Except.error 0

/-- Claim C5, witness: a fresh accumulator fed one complete span decodes it
and clears the accumulation. -/
theorem C5_witness :
    StreamingDeserializer.process_chunk decodeC5 StreamingDeserializer.new ['{', '}']
      = ({ parser := { buffer := [], markers := [] }, accumulated_json := [] },
         some 1) := by
  have h := (C5_process_chunk_contract decodeC5 StreamingDeserializer.new
    ['{', '}']).1 (by decide) (by decide)
  simpa [decodeC5] using h

/-- Claim C6: the repository's own test (`test_multiple_json_objects`) and
the spec say that a chunk holding two complete back-to-back structures
yields the FIRST structure decoded; but `process_chunk` hands the decoder
the concatenation of BOTH spans, which a one-value JSON decoder (the
spec's decode collaborator, `serde_json::from_str`) rejects as trailing
content, so the call returns `none`: neither structure is surfaced.  Here
the chunk is the two complete spans of the object and array openers; the
decoder accepts any single structural span, in particular each span alone,
yet the call returns `none`. -/
theorem C6_two_structures_eval :
    (StreamingDeserializer.process_chunk oneValueDecoder
        StreamingDeserializer.new ['{', '}', '[', ']']).2 = none ∧
    oneValueDecoder ['{', '}'] = Except.ok ['{', '}'] ∧
    isStructuralSpan ['{', '}'] = true ∧
    isStructuralSpan ['[', ']'] = true ∧
    (JSONParser.new.extractAll ['{', '}', '[', ']']).1.is_in_json = false := by
  refine ⟨by decide, by rfl, by decide, by decide, by decide⟩

/-- Claim C7: the `finalize` contract.  An empty accumulation returns no
value; otherwise the accumulated text is decoded regardless of whether
the extractor still reports open, and on success all state is cleared (a
fresh parser and an empty accumulation) and the value returned, while on
failure the decode error is surfaced to the caller. -/
theorem C7_finalize_contract {E V : Type} (decode : List Char → Except E V)
    (d : StreamingDeserializer) :
    (d.accumulated_json = [] →
      StreamingDeserializer.finalize decode d = (d, Except.ok none)) ∧
    (∀ v, d.accumulated_json ≠ [] → decode d.accumulated_json = Except.ok v →
      StreamingDeserializer.finalize decode d
        = ({ parser := JSONParser.new, accumulated_json := [] },
           Except.ok (some v))) ∧
    (∀ e, d.accumulated_json ≠ [] → decode d.accumulated_json = Except.error e →
      StreamingDeserializer.finalize decode d = (d, Except.error e)) := by
  refine ⟨?_, ?_, ?_⟩
  · intro h
    simp [StreamingDeserializer.finalize, h]
  · intro v hne hdec
    have hie : d.accumulated_json.isEmpty = false := by
      cases h : d.accumulated_json with
      | nil => exact absurd h hne
      | cons a l => simp
    simp [StreamingDeserializer.finalize, hie, hdec, StreamingDeserializer.reset]
  · intro e hne hdec
    have hie : d.accumulated_json.isEmpty = false := by
      cases h : d.accumulated_json with
      | nil => exact absurd h hne
      | cons a l => simp
    simp [StreamingDeserializer.finalize, hie, hdec]

/-- Decoder instance used by the C7 witness. -/
def decodeC7 : List Char → Except Nat Nat :=
  fun s => if s = ['{', '}'] then Except.ok 7 else Except.error 3

/-- Claim C7, witness: the three cases of the contract at concrete
states — empty accumulation, decodable accumulation, undecodable
accumulation. -/
theorem C7_witness :
    StreamingDeserializer.finalize decodeC7 StreamingDeserializer.new
      = (StreamingDeserializer.new, Except.ok none) ∧
    StreamingDeserializer.finalize decodeC7
        { parser := JSONParser.new, accumulated_json := ['{', '}'] }
      = ({ parser := JSONParser.new, accumulated_json := [] }, Except.ok (some 7)) ∧
    StreamingDeserializer.finalize decodeC7
        { parser := JSONParser.new, accumulated_json := ['{'] }
      = ({ parser := JSONParser.new, accumulated_json := ['{'] }, Except.error 3) := by
  refine ⟨?_, ?_, ?_⟩
  · exact (C7_finalize_contract decodeC7 StreamingDeserializer.new).1 rfl
  · exact (C7_finalize_contract decodeC7
      { parser := JSONParser.new, accumulated_json := ['{', '}'] }).2.1 7
      (by decide) (by rfl)
  · exact (C7_finalize_contract decodeC7
      { parser := JSONParser.new, accumulated_json := ['{'] }).2.2 3
      (by decide) (by rfl)

/-- Claim C8: open/closed tracking.  For every structural span, feeding
any non-empty strict prefix (stopping before the final closer) to a fresh
extractor leaves `is_in_json` true; feeding the remainder returns it to
false; and `is_in_json` holds exactly when the marker stack is non-empty. -/
theorem C8_open_closed :
    (∀ s p q : List Char, isStructuralSpan s = true → s = p ++ q →
        p ≠ [] → q ≠ [] → (JSONParser.new.extractAll p).1.is_in_json = true) ∧
    (∀ s p q : List Char, isStructuralSpan s = true → s = p ++ q →
        ((JSONParser.new.extractAll p).1.extractAll q).1.is_in_json = false) ∧
    (∀ parser : JSONParser, parser.is_in_json = true ↔ parser.markers ≠ []) := by
  have hoknil : stkOK [] := by intro x hx; simp at hx
  refine ⟨?_, ?_, ?_⟩
  · intro s p q hs hsplit hp hq
    subst hsplit
    have hrun : spanRun [] (p ++ q) = true := isStructuralSpan_spanRun _ hs
    obtain ⟨stk2, hm, hne⟩ := spanRun_front p q [] hp hq hrun
    obtain ⟨_, hmk⟩ := extractAll_matched p [] stk2 JSONParser.new hoknil rfl hm
    cases stk2 with
    | nil => exact absurd rfl hne
    | cons a b => simp [JSONParser.is_in_json, hmk, markersOf]
  · intro s p q hs hsplit
    subst hsplit
    have hrun : spanRun [] (p ++ q) = true := isStructuralSpan_spanRun _ hs
    have hms : matchedStack [] (p ++ q) = some [] := spanRun_matchedStack _ _ hrun
    obtain ⟨_, hmk⟩ := extractAll_matched (p ++ q) [] [] JSONParser.new hoknil rfl hms
    have happ := extractAll_append p q JSONParser.new
    have hfst : ((JSONParser.new.extractAll p).1.extractAll q).1
        = (JSONParser.new.extractAll (p ++ q)).1 := by rw [happ]
    rw [hfst]
    simp [JSONParser.is_in_json, hmk, markersOf]
  · intro parser
    cases h : parser.markers <;> simp [JSONParser.is_in_json, h]

/-- Claim C8, witness: the prefix and remainder parts applied to the span
of a single brace pair, split after its opener. -/
theorem C8_witness :
    (JSONParser.new.extractAll ['{']).1.is_in_json = true ∧
    ((JSONParser.new.extractAll ['{']).1.extractAll ['}']).1.is_in_json = false := by
  constructor
  · exact C8_open_closed.1 ['{', '}'] ['{'] ['}'] (by decide) rfl
      (by decide) (by decide)
  · exact C8_open_closed.2.1 ['{', '}'] ['{'] ['}'] (by decide) rfl

/-- Claim C9: while the extractor is closed (empty stack), a closer
character in the input is still written to the sink even though it opens
nothing and belongs to no span; it passes through the pending buffer
(pushed, then cleared by the empty-stack check) and the stack stays
empty. -/
theorem C9_stray_closer (p : JSONParser) (c : Char) (hm : p.markers = [])
    (hc : c = '}' ∨ c = ']') :
    p.extractAll [c] = ({ buffer := [], markers := [] }, [c]) := by
  have hclosed : p.is_in_json = false := by simp [JSONParser.is_in_json, hm]
  have hnew : Marker.new c = none := by
    rcases hc with h | h <;> subst h <;> simp [marker_new_eq]
  have hcp : c ∈ PAIRED_MARKERS := by
    rcases hc with h | h <;> subst h <;> decide
  simp [JSONParser.extractAll, hclosed, hcp, JSONParser.charStateUpdate,
    JSONParser.update_markers, hnew, remove_markers_pair_eq, hm]

/-- Claim C9, witness: the single-character input of a stray closing brace
fed to a fresh extractor produces exactly that character on the sink. -/
theorem C9_witness :
    JSONParser.new.extractAll ['}'] = ({ buffer := [], markers := [] }, ['}']) :=
  C9_stray_closer JSONParser.new '}' rfl (Or.inl rfl)

/-- Claim C10: when `finalize` fails to decode, the deserializer's state
is left entirely unchanged — the accumulation still holds the same text,
the parser is untouched — and an immediately repeated `finalize` returns
the same result; state is cleared only on a successful decode. -/
theorem C10_finalize_failure {E V : Type} (decode : List Char → Except E V)
    (d : StreamingDeserializer) (e : E) (h1 : d.accumulated_json ≠ [])
    (h2 : decode d.accumulated_json = Except.error e) :
    StreamingDeserializer.finalize decode d = (d, Except.error e) ∧
    (StreamingDeserializer.finalize decode d).1.accumulated_json
      = d.accumulated_json ∧
    (StreamingDeserializer.finalize decode d).1.parser = d.parser ∧
    StreamingDeserializer.finalize decode
        (StreamingDeserializer.finalize decode d).1
      = StreamingDeserializer.finalize decode d := by
  have hie : d.accumulated_json.isEmpty = false := by
    cases h : d.accumulated_json with
    | nil => exact absurd h h1
    | cons a l => simp
  have hmain : StreamingDeserializer.finalize decode d = (d, Except.error e) := by
    simp [StreamingDeserializer.finalize, hie, h2]
  refine ⟨hmain, by rw [hmain], by rw [hmain], ?_⟩
  rw [hmain]
  exact hmain

/-- Decoder instance used by the C10 witness: always fails. -/
def decodeC10 : List Char → Except Nat Nat :=
  fun _ => Except.error 5

/-- Claim C10, witness: a failing decode at a concrete non-empty
accumulation leaves the state intact and makes a repeated `finalize`
return the same result. -/
theorem C10_witness :
    StreamingDeserializer.finalize decodeC10
        { parser := JSONParser.new, accumulated_json := ['{'] }
      = ({ parser := JSONParser.new, accumulated_json := ['{'] },
         Except.error 5) ∧
    StreamingDeserializer.finalize decodeC10
        (StreamingDeserializer.finalize decodeC10
          { parser := JSONParser.new, accumulated_json := ['{'] }).1
      = StreamingDeserializer.finalize decodeC10
          { parser := JSONParser.new, accumulated_json := ['{'] } := by
  have h := C10_finalize_failure decodeC10
    { parser := JSONParser.new, accumulated_json := ['{'] } 5 (by decide) rfl
  exact ⟨h.1, h.2.2.2⟩

end Surfing
